import Mathlib

/-!
Verification of the vite-multi-page-html-generator-plugin core against its
specification.  The plugin is shallowly embedded: JS strings are Lean
strings, JS string methods are modelled on the underlying character lists,
the Node `path` functions (`resolve`, `relative`, `isAbsolute`) are modelled
for POSIX paths, a JS object is modelled as an association list in insertion
order, and the filesystem state observed by one invocation is passed in
explicitly.  Thrown JS errors are modelled with `Except`.
-/

namespace VitePlugin

/-- JS `s.startsWith(p)`: p is a prefix of s, modelled on character lists. -/
def jsStartsWith (s p : String) : Bool := p.data.isPrefixOf s.data

/-- JS `s.endsWith(p)`: p is a suffix of s, modelled on character lists. -/
def jsEndsWith (s p : String) : Bool := p.data.isSuffixOf s.data

/-- JS `file.replace(/\.html$/, '')`: remove a final ".html" when present. -/
def stripHtml (file : String) : String :=
  if jsEndsWith file ".html" then String.mk (file.data.take (file.data.length - 5))
  else file

/-- Split a character list into the chunks between slash characters. -/
def splitGroups : List Char → List (List Char)
  | [] => [[]]
  | c :: cs =>
    match splitGroups cs with
    | [] => [[]]
    | g :: gs => if c = '/' then [] :: g :: gs else (c :: g) :: gs

/-- Segments of a POSIX path string: the non-empty chunks between slashes,
with single-dot segments dropped, as Node path normalisation does. -/
def pathSegs (s : String) : List String :=
  ((splitGroups s.data).map String.mk).filter (fun seg => seg ≠ "" && seg ≠ ".")

/-- Normalisation of the segment list of an absolute path: a dot-dot segment
pops the previous segment and is dropped at the root, as in Node
`path.resolve` for absolute paths. -/
def normAbs (segs : List String) : List String :=
  segs.foldl (fun acc seg => if seg = ".." then acc.dropLast else acc ++ [seg]) []

/-- Interleave a slash between character-list chunks. -/
def intercalGroups : List (List Char) → List Char
  | [] => []
  | [g] => g
  | g :: gs => g ++ '/' :: intercalGroups gs

/-- Join segments into an absolute POSIX path string. -/
def joinAbs (segs : List String) : String :=
  String.mk ('/' :: intercalGroups (segs.map String.data))

/-- Join segments into a relative POSIX path string, the shape of a Node
`path.relative` result. -/
def joinRel (segs : List String) : String :=
  String.mk (intercalGroups (segs.map String.data))

/-- Node `path.isAbsolute` for POSIX paths. -/
def isAbsolutePath (s : String) : Bool := jsStartsWith s "/"

/-- Node `path.resolve(base, p)` for POSIX paths with an absolute base. -/
def resolvePath (base p : String) : String :=
  if isAbsolutePath p then joinAbs (normAbs (pathSegs p))
  else joinAbs (normAbs (pathSegs base ++ pathSegs p))

/-- Length of the longest common prefix of two segment lists. -/
def commonPrefixLen : List String → List String → Nat
  | a :: as, b :: bs => if a = b then commonPrefixLen as bs + 1 else 0
  | _, _ => 0

/-- Segment list of Node `path.relative(base, target)` for absolute POSIX
arguments: dot-dot segments up to the common ancestor, then down to the
target. -/
def relativeSegs (base target : String) : List String :=
  let f := normAbs (pathSegs base)
  let t := normAbs (pathSegs target)
  let c := commonPrefixLen f t
  List.replicate (f.length - c) ".." ++ t.drop c

/-- Node `path.relative(base, target)` for absolute POSIX arguments. -/
def relativePath (base target : String) : String := joinRel (relativeSegs base target)

/-- Function validateHtmlRoot of the plugin: for a falsy user path return the
project root; otherwise resolve the user path against the project root and
throw when the relative path from the project root starts with dot-dot or is
absolute.  The error branch models the thrown Error. -/
def validateHtmlRoot (userPath projectRoot : String) : Except String String :=
  if userPath = "" then .ok projectRoot
  else
    let absolutePath := resolvePath projectRoot userPath
    let rel := relativePath projectRoot absolutePath
    if jsStartsWith rel ".." || isAbsolutePath rel then
      .error ("Security: htmlRoot " ++ userPath ++ " is outside project root")
    else .ok absolutePath

/-- An exclusion pattern: an exact string, or a regular expression modelled
by its match predicate, the result of pattern.test on a file name. -/
inductive ExPattern where
  | str (s : String)
  | regex (test : String → Bool)

/-- Function isExcluded of the plugin: a RegExp pattern excludes when its
test matches the file name; a string pattern excludes when the file name or
the file name without its ".html" extension equals the pattern exactly. -/
def isExcluded (file : String) (exclude : List ExPattern) : Bool :=
  exclude.any fun pattern =>
    match pattern with
    | .regex test => test file
    | .str p => file == p || stripHtml file == p

/-- Function filterHtmlFiles of the plugin: keep the files ending in ".html"
that are not hidden and not excluded. -/
def filterHtmlFiles (files : List String) (exclude : List ExPattern) : List String :=
  files.filter fun file =>
    jsEndsWith file ".html" && !jsStartsWith file "." && !isExcluded file exclude

/-- Outcome of calling the user-supplied entryNameFormatter in JS: a string
result, a result of any non-string type, or a thrown exception. -/
inductive FmtResult where
  | ok (name : String)
  | nonString
  | thrown

/-- A user-supplied entryNameFormatter, applied to the derived name and the
file name. -/
abbrev Formatter := String → String → FmtResult

/-- Entry name createEntryMapping derives for one file: strip the ".html"
extension, then apply the formatter when supplied; none when the file is
skipped because the formatter returned a non-string or threw. -/
def deriveName (fmt : Option Formatter) (file : String) : Option String :=
  let name := stripHtml file
  match fmt with
  | none => some name
  | some f =>
    match f name file with
    | .ok n => some n
    | .nonString => none
    | .thrown => none

/-- UTF-16 code units of one character: a single unit below 0x10000 and a
surrogate pair above, the representation JS strings are compared by. -/
def utf16Units (c : Char) : List Nat :=
  if c.toNat < 65536 then [c.toNat]
  else [55296 + (c.toNat - 65536) / 1024, 56320 + (c.toNat - 65536) % 1024]

/-- The UTF-16 code unit sequence of a string. -/
def utf16 (s : String) : List Nat :=
  s.data.foldr (fun c acc => utf16Units c ++ acc) []

/-- Strict lexicographic order on code unit sequences, as the default JS
sort comparator compares strings. -/
def lexLt : List Nat → List Nat → Bool
  | [], [] => false
  | [], _ :: _ => true
  | _ :: _, [] => false
  | a :: as, b :: bs => if a < b then true else if b < a then false else lexLt as bs

/-- Non-strict order on strings by UTF-16 code units, the order of JS
sort. -/
def jsLe (a b : String) : Bool := !lexLt (utf16 b) (utf16 a)

/-- Stable insertion of a string into a sorted list. -/
def insertSorted (a : String) : List String → List String
  | [] => [a]
  | b :: bs => if jsLe a b then a :: b :: bs else b :: insertSorted a bs

/-- JS `htmlFiles.sort()`: stable sort of strings in lexicographic order. -/
def sortJS : List String → List String
  | [] => []
  | x :: xs => insertSorted x (sortJS xs)

/-- Property names every plain JS object inherits from Object.prototype;
each holds a function or an object, so reading one on an empty object
literal yields a truthy value. -/
def protoKeys : List String :=
  ["constructor", "hasOwnProperty", "isPrototypeOf", "propertyIsEnumerable",
   "toLocaleString", "toString", "valueOf", "__proto__",
   "__defineGetter__", "__defineSetter__", "__lookupGetter__", "__lookupSetter__"]

/-- JS truthiness of indexing an object built from an empty literal whose
own values are resolve results (non-empty strings, hence truthy): the name
is an own key, or a property inherited from Object.prototype. -/
def jsObjTruthy (entries : List (String × String)) (name : String) : Bool :=
  (entries.lookup name).isSome || protoKeys.contains name

/-- One iteration of the forEach body of createEntryMapping: skip the file
when the formatter misbehaves, skip it when indexing the entry object at
its derived name is truthy (an own key or an Object.prototype property),
and otherwise record the file resolved against the root. -/
def stepEntry (fmt : Option Formatter) (root : String)
    (entries : List (String × String)) (file : String) : List (String × String) :=
  match deriveName fmt file with
  | none => entries
  | some name =>
    if jsObjTruthy entries name then entries
    else entries ++ [(name, resolvePath root file)]

/-- Function createEntryMapping of the plugin: sort the files, then build the
entry object in order, keeping the first file for each entry name. -/
def createEntryMapping (htmlFiles : List String) (root : String)
    (fmt : Option Formatter) : List (String × String) :=
  (sortJS htmlFiles).foldl (stepEntry fmt root) []

/-- Observable state of the scanned directory for one invocation: the
directory is missing (fs access rejects), unreadable (readdir throws), or
readable with the given entry names. -/
inductive DirState where
  | missing
  | unreadable
  | files (names : List String)

/-- Function discoverHtmlFiles of the plugin.  A missing root yields null
after validateRoot; an unreadable root yields an empty file list from
readDirectoryFiles and hence null; an empty directory or an empty filter
result yields null; otherwise the entry mapping is built.  The empty root
string is the falsy-root guard of validateRoot. -/
def discoverHtmlFiles (root : String) (dir : DirState) (exclude : List ExPattern)
    (fmt : Option Formatter) : Option (List (String × String)) :=
  if root = "" then none
  else
    match dir with
    | .missing => none
    | .unreadable => none
    | .files fs =>
      if fs.isEmpty then none
      else
        let htmlFiles := filterHtmlFiles fs exclude
        if htmlFiles.isEmpty then none
        else some (createEntryMapping htmlFiles root fmt)

/-- A value stored under build.rollupOptions: either an entries object, as
placed under the input key, or some caller-supplied value left opaque. -/
inductive JVal where
  | entries (e : List (String × String))
  | other (tag : Nat)
deriving DecidableEq

/-- Options record of the plugin.  The empty string models an absent or
empty (falsy) htmlRoot. -/
structure PluginOptions where
  exclude : List ExPattern
  entryNameFormatter : Option Formatter
  htmlRoot : String

/-- Caller-supplied Vite configuration as the hook observes it: config.root,
with the empty string for an absent (falsy) root, and the key-value pairs of
config.build rollupOptions in insertion order, empty when absent. -/
structure UserConfig where
  root : String
  rollup : List (String × JVal)

/-- JS object spread followed by an explicit key: all pairs of the source
object, with key k bound to v, overwriting in place when k was present and
appended at the end otherwise. -/
def spreadSet (obj : List (String × JVal)) (k : String) (v : JVal) :
    List (String × JVal) :=
  if (obj.lookup k).isSome then obj.map (fun kv => if kv.1 == k then (k, v) else kv)
  else obj ++ [(k, v)]

/-- Function getRoot of the plugin: the project root is config.root when
truthy and the working directory otherwise, then validateHtmlRoot is
applied. -/
def getRoot (htmlRoot cfgRoot cwd : String) : Except String String :=
  let projectRoot := if cfgRoot = "" then cwd else cfgRoot
  validateHtmlRoot htmlRoot projectRoot

/-- The config hook of the plugin.  It returns the thrown error of
validateHtmlRoot, or none for the empty object literal, or the rollupOptions
object of the returned configuration fragment. -/
def configHook (opts : PluginOptions) (cfg : UserConfig) (cwd : String)
    (dir : DirState) : Except String (Option (List (String × JVal))) :=
  match getRoot opts.htmlRoot cfg.root cwd with
  | .error e => .error e
  | .ok root =>
    match discoverHtmlFiles root dir opts.exclude opts.entryNameFormatter with
    | none => .ok none
    | some entries =>
      if entries.isEmpty then .ok none
      else .ok (some (spreadSet cfg.rollup "input" (.entries entries)))

/-- A sequence of invocations of the config hook of one plugin instance,
each invocation observing its own configuration, working directory and
directory state. -/
def runCalls (opts : PluginOptions) (calls : List (UserConfig × String × DirState)) :
    List (Except String (Option (List (String × JVal)))) :=
  calls.map fun call => configHook opts call.1 call.2.1 call.2.2

/-! ### Theorems -/

/-- C3: a string exclusion pattern excludes a file exactly when the file name
or the file name without its ".html" suffix equals the pattern, and a
regular-expression pattern excludes a file exactly when it matches the file
name; exact-match semantics for strings, for every file name and exclusion
list. -/
theorem isExcluded_iff_exact_match (file : String) (exclude : List ExPattern) :
    isExcluded file exclude = true ↔
      ∃ p ∈ exclude,
        (∃ s, p = ExPattern.str s ∧ (file = s ∨ stripHtml file = s)) ∨
        (∃ t, p = ExPattern.regex t ∧ t file = true) := by
  unfold isExcluded
  rw [List.any_eq_true]
  constructor
  · rintro ⟨p, hp, hmatch⟩
    refine ⟨p, hp, ?_⟩
    cases p with
    | str s =>
      exact Or.inl ⟨s, rfl, by simpa using hmatch⟩
    | regex t =>
      exact Or.inr ⟨t, rfl, hmatch⟩
  · rintro ⟨p, hp, h⟩
    refine ⟨p, hp, ?_⟩
    rcases h with ⟨s, rfl, h⟩ | ⟨t, rfl, h⟩
    · simpa using h
    · exact h

/-- C5: filterHtmlFiles returns exactly the input names that end in ".html",
do not start with a dot, and match no exclusion pattern, as a subsequence of
the input list. -/
theorem filterHtmlFiles_spec (files : List String) (exclude : List ExPattern) :
    (filterHtmlFiles files exclude).Sublist files ∧
      ∀ x, x ∈ filterHtmlFiles files exclude ↔
        x ∈ files ∧ jsEndsWith x ".html" = true ∧ jsStartsWith x "." = false ∧
          isExcluded x exclude = false := by
  refine ⟨List.filter_sublist _, fun x => ?_⟩
  unfold filterHtmlFiles
  rw [List.mem_filter]
  simp [and_assoc]

/-- C10: with an absent or empty htmlRoot the validation is skipped and the
scanned root is config.root when truthy, the working directory otherwise:
validateHtmlRoot returns the project root unchanged on a falsy user path. -/
theorem getRoot_falsy_htmlRoot (cfgRoot cwd projectRoot : String) :
    validateHtmlRoot "" projectRoot = .ok projectRoot ∧
      getRoot "" cfgRoot cwd = .ok (if cfgRoot = "" then cwd else cfgRoot) :=
  ⟨rfl, rfl⟩

/-- C7: the result of an invocation of the config hook is a function of that
invocation's own inputs alone; the call history contributes nothing, so two
invocations observing the same configuration and directory state return
equal results and no invocation leaves state behind. -/
theorem configHook_history_free (opts : PluginOptions)
    (h : List (UserConfig × String × DirState)) (c : UserConfig) (cwd : String)
    (d : DirState) :
    (runCalls opts (h ++ [(c, cwd, d)])).getLast? = some (configHook opts c cwd d) := by
  unfold runCalls
  rw [List.map_append]
  simp

/-! ### Order facts for the JS sort -/

theorem lexLt_irrefl (l : List Nat) : lexLt l l = false := by
  induction l with
  | nil => rfl
  | cons a as ih => simp [lexLt, ih]

theorem lexLt_asymm : ∀ {l₁ l₂ : List Nat}, lexLt l₁ l₂ = true → lexLt l₂ l₁ = false := by
  intro l₁
  induction l₁ with
  | nil =>
    intro l₂ h
    cases l₂ with
    | nil => rfl
    | cons b bs => rfl
  | cons a as ih =>
    intro l₂ h
    cases l₂ with
    | nil => exact absurd h (by simp [lexLt])
    | cons b bs =>
      unfold lexLt at h ⊢
      rcases lt_trichotomy a b with hab | hab | hab
      · rw [if_neg (asymm hab), if_pos hab]
      · subst hab
        rw [if_neg (lt_irrefl a), if_neg (lt_irrefl a)] at h ⊢
        exact ih h
      · rw [if_neg (asymm hab), if_pos hab] at h
        exact Bool.noConfusion h

theorem lexLt_comparison :
    ∀ (x z : List Nat), lexLt x z = true → ∀ y, lexLt x y = true ∨ lexLt y z = true := by
  intro x
  induction x with
  | nil =>
    intro z h y
    cases z with
    | nil => exact absurd h (by simp [lexLt])
    | cons c cs =>
      cases y with
      | nil => exact Or.inr h
      | cons b bs => exact Or.inl rfl
  | cons a as ih =>
    intro z h y
    cases z with
    | nil => exact absurd h (by simp [lexLt])
    | cons c cs =>
      cases y with
      | nil => exact Or.inr rfl
      | cons b bs =>
        unfold lexLt at h ⊢
        rcases lt_trichotomy a b with hab | hab | hab
        · exact Or.inl (by rw [if_pos hab])
        · subst hab
          rcases lt_trichotomy a c with hac | hac | hac
          · exact Or.inr (by rw [if_pos hac])
          · subst hac
            rw [if_neg (lt_irrefl a), if_neg (lt_irrefl a)] at h
            rcases ih cs h bs with h' | h'
            · exact Or.inl (by rw [if_neg (lt_irrefl a), if_neg (lt_irrefl a)]; exact h')
            · exact Or.inr (by rw [if_neg (lt_irrefl a), if_neg (lt_irrefl a)]; exact h')
          · rw [if_neg (asymm hac), if_pos hac] at h
            exact Bool.noConfusion h
        · rcases lt_trichotomy a c with hac | hac | hac
          · exact Or.inr (by rw [if_pos (hab.trans hac)])
          · subst hac
            exact Or.inr (by rw [if_pos hab])
          · rw [if_neg (asymm hac), if_pos hac] at h
            exact Bool.noConfusion h

theorem jsLe_of_not_jsLe {a b : String} (h : jsLe a b = false) : jsLe b a = true := by
  unfold jsLe at h ⊢
  rw [Bool.not_eq_false'] at h
  rw [Bool.not_eq_true']
  exact lexLt_asymm h

theorem jsLe_trans {a b c : String} (h₁ : jsLe a b = true) (h₂ : jsLe b c = true) :
    jsLe a c = true := by
  unfold jsLe at h₁ h₂ ⊢
  rw [Bool.not_eq_true'] at h₁ h₂ ⊢
  cases hlt : lexLt (utf16 c) (utf16 a) with
  | false => rfl
  | true =>
    rcases lexLt_comparison _ _ hlt (utf16 b) with h' | h'
    · rw [h₂] at h'
      exact Bool.noConfusion h'
    · rw [h₁] at h'
      exact Bool.noConfusion h'

theorem insertSorted_perm (a : String) (l : List String) :
    (insertSorted a l).Perm (a :: l) := by
  induction l with
  | nil => exact List.Perm.refl _
  | cons b bs ih =>
    unfold insertSorted
    by_cases h : jsLe a b = true
    · rw [if_pos h]
    · rw [if_neg h]
      exact (List.Perm.cons b ih).trans (List.Perm.swap a b bs)

theorem pairwise_insertSorted (a : String) (l : List String)
    (h : List.Pairwise (fun x y => jsLe x y = true) l) :
    List.Pairwise (fun x y => jsLe x y = true) (insertSorted a l) := by
  induction l with
  | nil => simp [insertSorted]
  | cons b bs ih =>
    rw [List.pairwise_cons] at h
    obtain ⟨hb, hbs⟩ := h
    unfold insertSorted
    by_cases hab : jsLe a b = true
    · rw [if_pos hab, List.pairwise_cons]
      refine ⟨?_, List.pairwise_cons.mpr ⟨hb, hbs⟩⟩
      intro x hx
      rcases List.mem_cons.mp hx with rfl | hx'
      · exact hab
      · exact jsLe_trans hab (hb x hx')
    · rw [if_neg hab, List.pairwise_cons]
      refine ⟨?_, ih hbs⟩
      intro x hx
      have hx' := (insertSorted_perm a bs).mem_iff.mp hx
      rcases List.mem_cons.mp hx' with rfl | hx''
      · exact jsLe_of_not_jsLe (by simpa using hab)
      · exact hb x hx''

theorem sortJS_perm (l : List String) : (sortJS l).Perm l := by
  induction l with
  | nil => exact List.Perm.refl _
  | cons x xs ih => exact (insertSorted_perm x (sortJS xs)).trans (List.Perm.cons x ih)

theorem sortJS_sorted (l : List String) :
    List.Pairwise (fun x y => jsLe x y = true) (sortJS l) := by
  induction l with
  | nil => exact List.Pairwise.nil
  | cons x xs ih => exact pairwise_insertSorted x _ ih

theorem mem_sortJS {x : String} {l : List String} : x ∈ sortJS l ↔ x ∈ l :=
  (sortJS_perm l).mem_iff

/-! ### Lookup facts for the entry object -/

theorem lookup_append {α β : Type} [BEq α] (l₁ l₂ : List (α × β)) (a : α) :
    (l₁ ++ l₂).lookup a = (l₁.lookup a).or (l₂.lookup a) := by
  induction l₁ with
  | nil => simp [List.lookup]
  | cons kv l ih =>
    obtain ⟨k, b⟩ := kv
    cases h : a == k
    · simp [List.lookup, h, ih]
    · simp [List.lookup, h]

theorem lookup_eq_none_iff {α β : Type} [BEq α] [LawfulBEq α] (l : List (α × β)) (a : α) :
    l.lookup a = none ↔ a ∉ l.map Prod.fst := by
  induction l with
  | nil => simp [List.lookup]
  | cons kv l ih =>
    obtain ⟨k, b⟩ := kv
    cases h : a == k
    · have hne : ¬ a = k := by simpa using h
      simp [List.lookup, h, ih, hne]
    · have heq : a = k := by simpa using h
      simp [List.lookup, h, heq]

theorem stepEntry_derive_none {fmt : Option Formatter} {root f : String}
    {acc : List (String × String)} (h : deriveName fmt f = none) :
    stepEntry fmt root acc f = acc := by
  simp [stepEntry, h]

theorem stepEntry_skip {fmt : Option Formatter} {root f m : String}
    {acc : List (String × String)} (h : deriveName fmt f = some m)
    (hk : jsObjTruthy acc m = true) :
    stepEntry fmt root acc f = acc := by
  simp [stepEntry, h, hk]

theorem stepEntry_new {fmt : Option Formatter} {root f m : String}
    {acc : List (String × String)} (h : deriveName fmt f = some m)
    (hk : jsObjTruthy acc m = false) :
    stepEntry fmt root acc f = acc ++ [(m, resolvePath root f)] := by
  simp [stepEntry, h, hk]

theorem lookup_eq_none_of_not_truthy {acc : List (String × String)} {m : String}
    (h : jsObjTruthy acc m = false) : acc.lookup m = none := by
  cases hx : acc.lookup m with
  | none => rfl
  | some v =>
    have ht : jsObjTruthy acc m = true := by simp [jsObjTruthy, hx]
    rw [ht] at h
    exact Bool.noConfusion h

theorem foldl_stepEntry_lookup (fmt : Option Formatter) (root : String) :
    ∀ (l : List String) (acc : List (String × String)) (n : String),
      (l.foldl (stepEntry fmt root) acc).lookup n =
        (acc.lookup n).or
          (if protoKeys.contains n then none
           else ((l.find? fun g => deriveName fmt g == some n).map (resolvePath root))) := by
  intro l
  induction l with
  | nil => intro acc n; simp
  | cons f l ih =>
    intro acc n
    rw [List.foldl_cons, ih]
    cases hd : deriveName fmt f with
    | none =>
      rw [List.find?_cons_of_neg (p := fun g => deriveName fmt g == some n) _ (by simp [hd]),
        stepEntry_derive_none hd]
    | some m =>
      by_cases hpk : protoKeys.contains m = true
      · rw [stepEntry_skip hd (by simp only [jsObjTruthy, hpk, Bool.or_true])]
        by_cases hmn : m = n
        · subst hmn
          rw [if_pos hpk, if_pos hpk]
        · rw [List.find?_cons_of_neg (p := fun g => deriveName fmt g == some n) _
            (by simp [hd, hmn])]
      · have hpk' : protoKeys.contains m = false := by simpa using hpk
        by_cases hmn : m = n
        · subst hmn
          rw [List.find?_cons_of_pos (p := fun g => deriveName fmt g == some m) _
            (by simp [hd])]
          cases hk : acc.lookup m with
          | some v =>
            rw [stepEntry_skip hd (by simp only [jsObjTruthy, hk, Option.isSome_some, Bool.true_or]), hk]
            simp
          | none =>
            rw [stepEntry_new hd (by simp only [jsObjTruthy, hk, hpk', Option.isSome_none, Bool.false_or]), lookup_append, hk]
            have hnc : ¬ protoKeys.contains m = true := fun hc => Bool.noConfusion (hpk' ▸ hc)
            rw [if_neg hnc, if_neg hnc]
            simp [List.lookup]
        · rw [List.find?_cons_of_neg (p := fun g => deriveName fmt g == some n) _
            (by simp [hd, hmn])]
          cases hk : acc.lookup m with
          | some v => rw [stepEntry_skip hd (by simp only [jsObjTruthy, hk, Option.isSome_some, Bool.true_or])]
          | none =>
            rw [stepEntry_new hd (by simp only [jsObjTruthy, hk, hpk', Option.isSome_none, Bool.false_or]), lookup_append]
            have hnm : List.lookup n [(m, resolvePath root f)] = none := by
              have hne : (n == m) = false := by simp [Ne.symm hmn]
              simp [List.lookup, hne]
            rw [hnm, Option.or_none]

theorem foldl_stepEntry_nodup (fmt : Option Formatter) (root : String) :
    ∀ (l : List String) (acc : List (String × String)),
      ((acc.map Prod.fst).Nodup) →
      (((l.foldl (stepEntry fmt root) acc).map Prod.fst).Nodup) := by
  intro l
  induction l with
  | nil => intro acc h; simpa using h
  | cons f l ih =>
    intro acc h
    rw [List.foldl_cons]
    apply ih
    cases hd : deriveName fmt f with
    | none => rw [stepEntry_derive_none hd]; exact h
    | some m =>
      cases hk : jsObjTruthy acc m with
      | true => rw [stepEntry_skip hd hk]; exact h
      | false =>
        rw [stepEntry_new hd hk, List.map_append, List.nodup_append]
        refine ⟨h, by simp, ?_⟩
        intro x hx hx2
        have hxm : x = m := by simpa using hx2
        subst hxm
        exact (lookup_eq_none_iff acc x).mp (lookup_eq_none_of_not_truthy hk) hx

theorem mem_foldl_stepEntry (fmt : Option Formatter) (root : String) :
    ∀ (l : List String) (acc : List (String × String)) (p : String × String),
      p ∈ l.foldl (stepEntry fmt root) acc →
      p ∈ acc ∨ ∃ f ∈ l, deriveName fmt f = some p.1 ∧ p.2 = resolvePath root f := by
  intro l
  induction l with
  | nil => intro acc p hp; exact Or.inl (by simpa using hp)
  | cons f l ih =>
    intro acc p hp
    rw [List.foldl_cons] at hp
    rcases ih _ p hp with hacc | ⟨g, hg, hgn, hgp⟩
    · cases hd : deriveName fmt f with
      | none =>
        rw [stepEntry_derive_none hd] at hacc
        exact Or.inl hacc
      | some m =>
        cases hk : jsObjTruthy acc m with
        | true =>
          rw [stepEntry_skip hd hk] at hacc
          exact Or.inl hacc
        | false =>
          rw [stepEntry_new hd hk] at hacc
          rcases List.mem_append.mp hacc with h' | h'
          · exact Or.inl h'
          · have hpm : p = (m, resolvePath root f) := by simpa using h'
            refine Or.inr ⟨f, List.mem_cons_self f l, ?_, ?_⟩
            · rw [hpm]
              exact hd
            · rw [hpm]
    · exact Or.inr ⟨g, List.mem_cons_of_mem f hg, hgn, hgp⟩

theorem isAbsolutePath_joinAbs (segs : List String) :
    isAbsolutePath (joinAbs segs) = true := by
  have h1 : ("/" : String).data = ['/'] := rfl
  have h2 : ∀ l : List Char, (String.mk l).data = l := fun _ => rfl
  simp [isAbsolutePath, jsStartsWith, joinAbs, h1, h2, List.isPrefixOf]

theorem isAbsolutePath_resolvePath (base p : String) :
    isAbsolutePath (resolvePath base p) = true := by
  unfold resolvePath
  split
  · exact isAbsolutePath_joinAbs _
  · exact isAbsolutePath_joinAbs _

theorem find?_filter_of_imp {α : Type} (l : List α) (p q : α → Bool)
    (h : ∀ x, p x = true → q x = true) : (l.filter q).find? p = l.find? p := by
  induction l with
  | nil => rfl
  | cons a l ih =>
    cases hq : q a
    · have hp : p a = false := by
        cases hpa : p a
        · rfl
        · rw [h a hpa] at hq; cases hq
      rw [List.filter_cons_of_neg (by simp [hq]), List.find?_cons_of_neg _ (by simp [hp])]
      exact ih
    · rw [List.filter_cons_of_pos hq]
      cases hpa : p a
      · rw [List.find?_cons_of_neg _ (by simp [hpa]), List.find?_cons_of_neg _ (by simp [hpa])]
        exact ih
      · rw [List.find?_cons_of_pos _ hpa, List.find?_cons_of_pos _ hpa]

/-! ### Claims about the entry mapping -/

/-- C4 counterexample: a file whose derived name is an Object.prototype
property is skipped by the truthy duplicate guard even though it is the
first and only file mapping to that name, so no file path at all is
recorded for the entry name constructor. -/
theorem createEntryMapping_drops_proto_name :
    deriveName none "constructor.html" = some "constructor" ∧
    createEntryMapping ["constructor.html"] "/proj" none = [] :=
  ⟨rfl, rfl⟩

/-- C4 (amended): createEntryMapping is deterministic, processes the files
in sorted lexicographic order of UTF-16 code units, derives each entry name
by stripping ".html" and applying the formatter, keeps the first file on a
name collision and skips every later file mapping to the same name, and
records exactly one file path per entry name, except that a derived name
inherited from Object.prototype (constructor, toString, and the like) is
treated as already present by the duplicate guard, so every file mapping to
such a name is skipped and the name receives no entry; the recorded keys
are pairwise distinct. -/
theorem createEntryMapping_deterministic_collision_first (files : List String)
    (root : String) (fmt : Option Formatter) :
    (sortJS files).Perm files ∧
    List.Pairwise (fun a b => jsLe a b = true) (sortJS files) ∧
    ((createEntryMapping files root fmt).map Prod.fst).Nodup ∧
    ∀ n, (createEntryMapping files root fmt).lookup n =
      if protoKeys.contains n then none
      else ((sortJS files).find? fun f => deriveName fmt f == some n).map
        (resolvePath root) := by
  refine ⟨sortJS_perm files, sortJS_sorted files, ?_, ?_⟩
  · exact foldl_stepEntry_nodup fmt root _ [] (by simp)
  · intro n
    unfold createEntryMapping
    rw [foldl_stepEntry_lookup]
    simp

/-- C6: every entry mapping produced by discoverHtmlFiles has pairwise
distinct keys, and for an absolute root every value is the absolute path of
a discovered file name resolved against the root. -/
theorem discoverHtmlFiles_mapping_inv (root : String) (files : List String)
    (exclude : List ExPattern) (fmt : Option Formatter) (E : List (String × String))
    (_habs : isAbsolutePath root = true)
    (h : discoverHtmlFiles root (.files files) exclude fmt = some E) :
    ((E.map Prod.fst).Nodup) ∧
      ∀ p ∈ E, isAbsolutePath p.2 = true ∧
        ∃ f ∈ files, deriveName fmt f = some p.1 ∧ p.2 = resolvePath root f := by
  simp only [discoverHtmlFiles] at h
  by_cases hr : root = ""
  · rw [if_pos hr] at h; cases h
  · rw [if_neg hr] at h
    by_cases hf : files.isEmpty = true
    · rw [if_pos hf] at h; cases h
    · rw [if_neg hf] at h
      by_cases hh : (filterHtmlFiles files exclude).isEmpty = true
      · rw [if_pos hh] at h; cases h
      · rw [if_neg hh] at h
        have hE : E = createEntryMapping (filterHtmlFiles files exclude) root fmt := by
          injection h with h'
          exact h'.symm
        subst hE
        refine ⟨foldl_stepEntry_nodup fmt root _ [] (by simp), ?_⟩
        intro p hp
        unfold createEntryMapping at hp
        rcases mem_foldl_stepEntry fmt root _ [] p hp with h0 | ⟨f, hf', hfn, hfp⟩
        · simp at h0
        · refine ⟨by rw [hfp]; exact isAbsolutePath_resolvePath root f, f, ?_, hfn, hfp⟩
          have hmem : f ∈ filterHtmlFiles files exclude := mem_sortJS.mp hf'
          unfold filterHtmlFiles at hmem
          exact List.Sublist.mem hmem (List.filter_sublist files)

/-- C9 counterexample: the formatter returns a non-string for the first
file and the string toString for the remaining file, yet no entry is
produced for the remaining file either, because its returned name is an
Object.prototype property and the truthy duplicate guard skips it. -/
theorem createEntryMapping_formatter_remaining_dropped :
    (fun name (_ : String) =>
        if name = "a" then FmtResult.nonString else FmtResult.ok "toString") "a" "a.html"
      = FmtResult.nonString ∧
    deriveName (some fun name (_ : String) =>
        if name = "a" then FmtResult.nonString else FmtResult.ok "toString") "b.html"
      = some "toString" ∧
    createEntryMapping ["a.html", "b.html"] "/proj"
      (some fun name (_ : String) =>
        if name = "a" then FmtResult.nonString else FmtResult.ok "toString") = [] :=
  ⟨rfl, rfl, rfl⟩

/-- C9 (amended): a file whose formatter call returns a non-string or
throws is skipped and contributes nothing, and every other file is still
processed: the mapping is the one built from the files with a string-valued
formatter result, except that a resulting name inherited from
Object.prototype is also skipped by the truthy duplicate guard;
createEntryMapping totalises every formatter outcome and never throws. -/
theorem createEntryMapping_skips_bad_formatter (files : List String) (root : String)
    (f : Formatter) :
    (∀ file, f (stripHtml file) file = FmtResult.nonString ∨
        f (stripHtml file) file = FmtResult.thrown → deriveName (some f) file = none) ∧
    ∀ n, (createEntryMapping files root (some f)).lookup n =
      if protoKeys.contains n then none
      else (((sortJS files).filter fun x => (deriveName (some f) x).isSome).find?
          fun x => deriveName (some f) x == some n).map (resolvePath root) := by
  constructor
  · intro file h
    rcases h with h | h <;> simp [deriveName, h]
  · intro n
    unfold createEntryMapping
    rw [foldl_stepEntry_lookup]
    rw [find?_filter_of_imp]
    · simp
    · intro x hx
      have hx' : deriveName (some f) x = some n := eq_of_beq hx
      rw [hx']
      rfl

/-- Witness for C6 at a concrete directory listing. -/
theorem discoverHtmlFiles_mapping_inv_witness :
    isAbsolutePath "/proj" = true ∧
      ((([("a", "/proj/a.html"), ("b", "/proj/b.html")] :
          List (String × String)).map Prod.fst).Nodup ∧
        ∀ p ∈ ([("a", "/proj/a.html"), ("b", "/proj/b.html")] : List (String × String)),
          isAbsolutePath p.2 = true ∧
          ∃ f ∈ ["b.html", "a.html"],
            deriveName none f = some p.1 ∧ p.2 = resolvePath "/proj" f) :=
  ⟨rfl, discoverHtmlFiles_mapping_inv "/proj" ["b.html", "a.html"] [] none _ rfl rfl⟩

/-! ### Claims about the config hook -/

/-- C8: whenever validation produced a root but the directory is missing,
unreadable, empty, or no HTML file survives the filter, the config hook
returns the empty object and does not throw, so the caller configuration is
left unchanged. -/
theorem configHook_empty_when_nothing_found (opts : PluginOptions) (cfg : UserConfig)
    (cwd : String) (dir : DirState) (r : String)
    (hroot : getRoot opts.htmlRoot cfg.root cwd = .ok r)
    (hdir : dir = .missing ∨ dir = .unreadable ∨ dir = .files [] ∨
      ∃ fs, dir = .files fs ∧ filterHtmlFiles fs opts.exclude = []) :
    configHook opts cfg cwd dir = .ok none := by
  have hdisc : discoverHtmlFiles r dir opts.exclude opts.entryNameFormatter = none := by
    rcases hdir with rfl | rfl | rfl | ⟨fs, rfl, hfs⟩
    · by_cases hr : r = "" <;> simp [discoverHtmlFiles, hr]
    · by_cases hr : r = "" <;> simp [discoverHtmlFiles, hr]
    · by_cases hr : r = "" <;> simp [discoverHtmlFiles, hr]
    · by_cases hr : r = "" <;> simp [discoverHtmlFiles, hr, hfs]
  simp [configHook, hroot, hdisc]

/-- Witness for C8 at a concrete missing directory. -/
theorem configHook_empty_when_nothing_found_witness :
    getRoot "" "/proj" "/proj" = Except.ok "/proj" ∧
      configHook ⟨[], none, ""⟩ ⟨"/proj", []⟩ "/proj" DirState.missing = .ok none :=
  ⟨rfl, configHook_empty_when_nothing_found ⟨[], none, ""⟩ ⟨"/proj", []⟩ "/proj"
    DirState.missing "/proj" rfl (Or.inl rfl)⟩

theorem lookup_map_set (l : List (String × JVal)) (k : String) (v : JVal)
    (hs : (l.lookup k).isSome = true) :
    (l.map (fun kv => if kv.1 == k then (k, v) else kv)).lookup k = some v := by
  induction l with
  | nil => exact absurd hs (by simp [List.lookup])
  | cons kv l ih =>
    obtain ⟨k₁, b⟩ := kv
    rw [List.map_cons]
    by_cases h1 : k₁ = k
    · subst h1
      rw [if_pos (by simp : ((k₁, b).1 == k₁) = true), List.lookup_cons]
      simp
    · have h1'' : (k == k₁) = false := by simp [Ne.symm h1]
      rw [if_neg (by simp [h1] : ¬ ((k₁, b).1 == k) = true), List.lookup_cons]
      simp only [h1'']
      apply ih
      have hs' := hs
      rw [List.lookup_cons] at hs'
      simpa only [h1''] using hs'

theorem filter_map_set (l : List (String × JVal)) (k : String) (v : JVal) :
    ((l.map (fun kv => if kv.1 == k then (k, v) else kv)).filter
        (fun kv => !(kv.1 == k))) =
      l.filter (fun kv => !(kv.1 == k)) := by
  induction l with
  | nil => rfl
  | cons kv l ih =>
    obtain ⟨k₁, b⟩ := kv
    rw [List.map_cons]
    by_cases h1 : k₁ = k
    · subst h1
      rw [if_pos (by simp : ((k₁, b).1 == k₁) = true),
        List.filter_cons_of_neg (by simp), List.filter_cons_of_neg (by simp)]
      exact ih
    · rw [if_neg (by simp [h1] : ¬ ((k₁, b).1 == k) = true),
        List.filter_cons_of_pos (by simp [h1]), List.filter_cons_of_pos (by simp [h1])]
      rw [ih]

theorem spreadSet_lookup (l : List (String × JVal)) (k : String) (v : JVal) :
    (spreadSet l k v).lookup k = some v := by
  unfold spreadSet
  by_cases hs : (l.lookup k).isSome = true
  · rw [if_pos hs]
    exact lookup_map_set l k v hs
  · rw [if_neg hs, lookup_append, Option.not_isSome_iff_eq_none.mp hs, Option.none_or]
    simp [List.lookup]

theorem spreadSet_filter (l : List (String × JVal)) (k : String) (v : JVal) :
    ((spreadSet l k v).filter (fun kv => !(kv.1 == k))) =
      l.filter (fun kv => !(kv.1 == k)) := by
  unfold spreadSet
  by_cases hs : (l.lookup k).isSome = true
  · rw [if_pos hs]
    exact filter_map_set l k v
  · rw [if_neg hs, List.filter_append]
    simp

/-- C1 counterexample: a caller-supplied input mapping under
build.rollupOptions is not preserved in the returned configuration; the
discovered entries replace it wholesale. -/
theorem configHook_clobbers_caller_input :
    configHook ⟨[], none, ""⟩ ⟨"/proj", [("input", JVal.other 0)]⟩ "/proj"
        (.files ["a.html"]) =
      .ok (some [("input", JVal.entries [("a", "/proj/a.html")])]) ∧
    ("input", JVal.other 0) ∉ [("input", JVal.entries [("a", "/proj/a.html")])] :=
  ⟨rfl, by decide⟩

/-- C1 (amended): when the config hook returns a configuration fragment,
every caller pair under build.rollupOptions whose key is not input is
preserved unchanged, and the input key holds exactly the discovered entry
mapping, replacing any caller-supplied input. -/
theorem configHook_preserves_non_input (opts : PluginOptions) (cfg : UserConfig)
    (cwd : String) (dir : DirState) (r : List (String × JVal))
    (h : configHook opts cfg cwd dir = .ok (some r)) :
    (r.filter fun kv => !(kv.1 == "input")) =
      (cfg.rollup.filter fun kv => !(kv.1 == "input")) ∧
    ∃ root E, getRoot opts.htmlRoot cfg.root cwd = .ok root ∧
      discoverHtmlFiles root dir opts.exclude opts.entryNameFormatter = some E ∧
      r.lookup "input" = some (JVal.entries E) := by
  cases hg : getRoot opts.htmlRoot cfg.root cwd with
  | error e =>
    simp only [configHook, hg] at h
    simp at h
  | ok root =>
    simp only [configHook, hg] at h
    cases hd : discoverHtmlFiles root dir opts.exclude opts.entryNameFormatter with
    | none =>
      simp only [hd] at h
      simp at h
    | some E =>
      simp only [hd] at h
      by_cases he : E.isEmpty = true
      · rw [if_pos he] at h
        simp at h
      · rw [if_neg he] at h
        have hr : spreadSet cfg.rollup "input" (.entries E) = r := by
          simpa using h
        subst hr
        exact ⟨spreadSet_filter _ _ _, root, E, rfl, hd, spreadSet_lookup _ _ _⟩

/-- Witness for the amended C1 at a concrete configuration. -/
theorem configHook_preserves_non_input_witness :
    configHook ⟨[], none, ""⟩ ⟨"/proj", [("k", JVal.other 7), ("input", JVal.other 0)]⟩
        "/proj" (.files ["a.html"]) =
      .ok (some [("k", JVal.other 7), ("input", JVal.entries [("a", "/proj/a.html")])]) ∧
    ((([("k", JVal.other 7), ("input", JVal.entries [("a", "/proj/a.html")])] :
          List (String × JVal)).filter fun kv => !(kv.1 == "input")) =
        (([("k", JVal.other 7), ("input", JVal.other 0)] :
          List (String × JVal)).filter fun kv => !(kv.1 == "input")) ∧
      ∃ root E, getRoot "" "/proj" "/proj" = .ok root ∧
        discoverHtmlFiles root (.files ["a.html"]) [] none = some E ∧
        ([("k", JVal.other 7), ("input", JVal.entries [("a", "/proj/a.html")])] :
          List (String × JVal)).lookup "input" = some (JVal.entries E)) :=
  ⟨rfl, configHook_preserves_non_input ⟨[], none, ""⟩
    ⟨"/proj", [("k", JVal.other 7), ("input", JVal.other 0)]⟩ "/proj"
    (.files ["a.html"]) _ rfl⟩

/-! ### Path facts for the traversal check -/

theorem splitGroups_ne_nil : ∀ cs : List Char, splitGroups cs ≠ [] := by
  intro cs
  induction cs with
  | nil => simp [splitGroups]
  | cons c cs ih =>
    unfold splitGroups
    cases h : splitGroups cs with
    | nil => exact absurd h ih
    | cons g gs => by_cases hc : c = '/' <;> simp [hc]

theorem splitGroups_cons (c : Char) (cs : List Char) :
    splitGroups (c :: cs) = match splitGroups cs with
      | [] => [[]]
      | g :: gs => if c = '/' then [] :: g :: gs else (c :: g) :: gs := rfl

theorem splitGroups_cons_slash (cs : List Char) :
    splitGroups ('/' :: cs) = [] :: splitGroups cs := by
  cases h : splitGroups cs with
  | nil => exact absurd h (splitGroups_ne_nil cs)
  | cons g gs =>
    rw [splitGroups_cons]
    simp only [h]
    simp

theorem splitGroups_no_slash (g : List Char) (hg : '/' ∉ g) :
    splitGroups g = [g] := by
  induction g with
  | nil => rfl
  | cons c g ih =>
    have hc : c ≠ '/' := fun h => hg (h ▸ List.mem_cons_self c g)
    have hg' : '/' ∉ g := fun h => hg (List.mem_cons_of_mem c h)
    rw [splitGroups_cons]
    simp only [ih hg']
    simp [hc]

theorem splitGroups_append_slash (g : List Char) (hg : '/' ∉ g) (cs : List Char) :
    splitGroups (g ++ '/' :: cs) = g :: splitGroups cs := by
  induction g with
  | nil => simpa using splitGroups_cons_slash cs
  | cons c g ih =>
    have hc : c ≠ '/' := fun h => hg (h ▸ List.mem_cons_self c g)
    have hg' : '/' ∉ g := fun h => hg (List.mem_cons_of_mem c h)
    show splitGroups (c :: (g ++ '/' :: cs)) = (c :: g) :: splitGroups cs
    rw [splitGroups_cons]
    simp only [ih hg']
    simp [hc]

theorem splitGroups_intercal : ∀ (gs : List (List Char)), (∀ g ∈ gs, '/' ∉ g) → gs ≠ [] →
    splitGroups (intercalGroups gs) = gs := by
  intro gs
  induction gs with
  | nil => intro _ h; exact absurd rfl h
  | cons g gs ih =>
    intro hgood _
    cases gs with
    | nil => exact splitGroups_no_slash g (hgood g (List.mem_cons_self g []))
    | cons g' gs' =>
      rw [show intercalGroups (g :: g' :: gs') = g ++ '/' :: intercalGroups (g' :: gs')
        from rfl]
      rw [splitGroups_append_slash g (hgood g (List.mem_cons_self g _)) _]
      rw [ih (fun x hx => hgood x (List.mem_cons_of_mem g hx)) (by simp)]

theorem no_slash_of_mem_splitGroups :
    ∀ (cs : List Char) (g : List Char), g ∈ splitGroups cs → '/' ∉ g := by
  intro cs
  induction cs with
  | nil =>
    intro g hg
    have : g = [] := by simpa [splitGroups] using hg
    subst this
    simp
  | cons c cs ih =>
    intro g hg
    rw [splitGroups_cons] at hg
    cases h : splitGroups cs with
    | nil => exact absurd h (splitGroups_ne_nil cs)
    | cons g₀ gs =>
      simp only [h] at hg
      by_cases hc : c = '/'
      · rw [if_pos hc] at hg
        rcases List.mem_cons.mp hg with rfl | hg'
        · simp
        · exact ih g (by rw [h]; exact hg')
      · rw [if_neg hc] at hg
        rcases List.mem_cons.mp hg with rfl | hg'
        · intro hmem
          rcases List.mem_cons.mp hmem with h' | h'
          · exact hc h'.symm
          · exact ih g₀ (by rw [h]; exact List.mem_cons_self g₀ gs) h'
        · exact ih g (by rw [h]; exact List.mem_cons_of_mem g₀ hg')

theorem pathSegs_good (s : String) : ∀ t ∈ pathSegs s, t ≠ "" ∧ t ≠ "." ∧ '/' ∉ t.data := by
  intro t ht
  unfold pathSegs at ht
  rw [List.mem_filter] at ht
  obtain ⟨hmem, hcond⟩ := ht
  rw [List.mem_map] at hmem
  obtain ⟨g, hg, rfl⟩ := hmem
  have hns := no_slash_of_mem_splitGroups s.data g hg
  simp only [Bool.and_eq_true, decide_eq_true_eq] at hcond
  exact ⟨hcond.1, hcond.2, hns⟩

theorem foldl_norm_append : ∀ (l acc : List String), (∀ s ∈ l, s ≠ "..") →
    l.foldl (fun acc seg => if seg = ".." then acc.dropLast else acc ++ [seg]) acc
      = acc ++ l := by
  intro l
  induction l with
  | nil => intro acc _; simp
  | cons s l ih =>
    intro acc h
    rw [List.foldl_cons, if_neg (h s (List.mem_cons_self s l))]
    rw [ih (acc ++ [s]) (fun t ht => h t (List.mem_cons_of_mem s ht))]
    simp

theorem normAbs_of_no_dotdot (l : List String) (h : ∀ s ∈ l, s ≠ "..") :
    normAbs l = l := by
  unfold normAbs
  rw [foldl_norm_append l [] h]
  simp

theorem mem_normAbs_aux : ∀ (l acc : List String) (p : String → Prop),
    (∀ s ∈ acc, p s) → (∀ s ∈ l, s ≠ ".." → p s) →
    ∀ s ∈ l.foldl (fun acc seg => if seg = ".." then acc.dropLast else acc ++ [seg]) acc,
      p s := by
  intro l
  induction l with
  | nil => intro acc p hacc _ s hs; exact hacc s hs
  | cons t l ih =>
    intro acc p hacc hl s hs
    rw [List.foldl_cons] at hs
    by_cases ht : t = ".."
    · rw [if_pos ht] at hs
      exact ih _ p (fun u hu => hacc u (List.Sublist.mem hu (List.dropLast_sublist acc)))
        (fun u hu hne => hl u (List.mem_cons_of_mem t hu) hne) s hs
    · rw [if_neg ht] at hs
      refine ih _ p ?_ (fun u hu hne => hl u (List.mem_cons_of_mem t hu) hne) s hs
      intro u hu
      rcases List.mem_append.mp hu with h' | h'
      · exact hacc u h'
      · have hu' : u = t := by simpa using h'
        rw [hu']
        exact hl t (List.mem_cons_self t l) ht

theorem normAbs_no_dotdot (l : List String)
    (hgood : ∀ s ∈ l, s ≠ "" ∧ s ≠ "." ∧ '/' ∉ s.data) :
    ∀ s ∈ normAbs l, s ≠ ".." ∧ s ≠ "" ∧ s ≠ "." ∧ '/' ∉ s.data := by
  unfold normAbs
  intro s hs
  refine mem_normAbs_aux l []
    (fun t => t ≠ ".." ∧ t ≠ "" ∧ t ≠ "." ∧ '/' ∉ t.data) (by simp) ?_ s hs
  intro u hu hne
  exact ⟨hne, hgood u hu⟩

theorem pathSegs_joinAbs (A : List String)
    (hgood : ∀ s ∈ A, s ≠ ".." ∧ s ≠ "" ∧ s ≠ "." ∧ '/' ∉ s.data) :
    pathSegs (joinAbs A) = A := by
  unfold pathSegs joinAbs
  have hdata : (String.mk ('/' :: intercalGroups (A.map String.data))).data
      = '/' :: intercalGroups (A.map String.data) := rfl
  rw [hdata, splitGroups_cons_slash]
  cases A with
  | nil => rfl
  | cons a A' =>
    have hmem : ∀ g ∈ (a :: A').map String.data, '/' ∉ g := by
      intro g hg
      rw [List.mem_map] at hg
      obtain ⟨s, hs, rfl⟩ := hg
      exact (hgood s hs).2.2.2
    rw [splitGroups_intercal _ hmem (by simp)]
    have hmk : ((a :: A').map String.data).map String.mk = a :: A' := by
      rw [List.map_map]
      have hcomp : (String.mk ∘ String.data) = id := funext (fun s => rfl)
      rw [hcomp, List.map_id]
    rw [List.map_cons, hmk]
    rw [List.filter_cons_of_neg (by simp)]
    rw [List.filter_eq_self.mpr ?_]
    intro s hs
    have hgs := hgood s hs
    simp [hgs.2.1, hgs.2.2.1]

theorem resolvePath_norm (base p : String) :
    (∀ s ∈ pathSegs (resolvePath base p), s ≠ "..") ∧
    normAbs (pathSegs (resolvePath base p)) = pathSegs (resolvePath base p) := by
  have hcore : ∀ X : List String, (∀ t ∈ X, t ≠ "" ∧ t ≠ "." ∧ '/' ∉ t.data) →
      (∀ s ∈ pathSegs (joinAbs (normAbs X)), s ≠ "..") ∧
      normAbs (pathSegs (joinAbs (normAbs X))) = pathSegs (joinAbs (normAbs X)) := by
    intro X hX
    have hgood := normAbs_no_dotdot X hX
    have hrt : pathSegs (joinAbs (normAbs X)) = normAbs X := pathSegs_joinAbs _ hgood
    constructor
    · intro s hs
      rw [hrt] at hs
      exact (hgood s hs).1
    · rw [hrt]
      exact normAbs_of_no_dotdot _ (fun s hs => (hgood s hs).1)
  unfold resolvePath
  split
  · exact hcore _ (pathSegs_good p)
  · refine hcore _ ?_
    intro t ht
    rcases List.mem_append.mp ht with h | h
    · exact pathSegs_good base t h
    · exact pathSegs_good p t h

theorem commonPrefixLen_le_left : ∀ (f t : List String), commonPrefixLen f t ≤ f.length := by
  intro f
  induction f with
  | nil => intro t; cases t <;> simp [commonPrefixLen]
  | cons a as ih =>
    intro t
    cases t with
    | nil => simp [commonPrefixLen]
    | cons b bs =>
      unfold commonPrefixLen
      by_cases hab : a = b
      · rw [if_pos hab]
        simpa using ih bs
      · rw [if_neg hab]
        simp

theorem prefix_of_commonPrefixLen_eq :
    ∀ (f t : List String), commonPrefixLen f t = f.length → f <+: t := by
  intro f
  induction f with
  | nil => intro t _; exact List.nil_prefix
  | cons a as ih =>
    intro t h
    cases t with
    | nil => simp [commonPrefixLen] at h
    | cons b bs =>
      unfold commonPrefixLen at h
      by_cases hab : a = b
      · rw [if_pos hab] at h
        subst hab
        rw [List.prefix_cons_inj]
        exact ih bs (by simpa using h)
      · rw [if_neg hab] at h
        simp at h

theorem jsStartsWith_joinRel_dotdot (l : List String) :
    jsStartsWith (joinRel (".." :: l)) ".." = true := by
  have hd2 : (".." : String).data = ['.', '.'] := rfl
  unfold jsStartsWith joinRel
  rw [show (String.mk (intercalGroups ((".." :: l).map String.data))).data
    = intercalGroups ((".." :: l).map String.data) from rfl]
  rw [hd2, List.map_cons, hd2]
  cases hm : l.map String.data with
  | nil => rfl
  | cons g gs =>
    show List.isPrefixOf ['.', '.'] (['.', '.'] ++ '/' :: intercalGroups (g :: gs)) = true
    simp [List.isPrefixOf]

theorem relative_no_dotdot_prefix (base target : String)
    (h : jsStartsWith (relativePath base target) ".." = false) :
    normAbs (pathSegs base) <+: normAbs (pathSegs target) := by
  by_cases hk : (normAbs (pathSegs base)).length -
      commonPrefixLen (normAbs (pathSegs base)) (normAbs (pathSegs target)) = 0
  · have hle := commonPrefixLen_le_left (normAbs (pathSegs base)) (normAbs (pathSegs target))
    exact prefix_of_commonPrefixLen_eq _ _ (by omega)
  · exfalso
    obtain ⟨k, hk'⟩ := Nat.exists_eq_succ_of_ne_zero hk
    have hrel : relativeSegs base target =
        ".." :: (List.replicate k ".." ++
          (normAbs (pathSegs target)).drop
            (commonPrefixLen (normAbs (pathSegs base)) (normAbs (pathSegs target)))) := by
      simp only [relativeSegs]
      rw [hk', List.replicate_succ, List.cons_append]
    unfold relativePath at h
    rw [hrel, jsStartsWith_joinRel_dotdot] at h
    exact Bool.noConfusion h

/-- C2: for a non-empty htmlRoot and an absolute project root,
validateHtmlRoot throws exactly when the relative path from the project root
to the resolved path starts with dot-dot or is absolute; otherwise it
returns the resolved absolute path, whose segments contain no dot-dot and
extend the normalised segments of the project root, so the path lies inside
the project root and a relative htmlRoot cannot escape it through dot-dot
segments. -/
theorem validateHtmlRoot_path_safety (userPath projectRoot : String)
    (hne : userPath ≠ "") (_habs : isAbsolutePath projectRoot = true) :
    ((∃ e, validateHtmlRoot userPath projectRoot = .error e) ↔
      (jsStartsWith (relativePath projectRoot (resolvePath projectRoot userPath)) ".." = true ∨
       isAbsolutePath (relativePath projectRoot (resolvePath projectRoot userPath)) = true)) ∧
    ∀ p, validateHtmlRoot userPath projectRoot = .ok p →
      p = resolvePath projectRoot userPath ∧
      isAbsolutePath p = true ∧
      (∀ s ∈ pathSegs p, s ≠ "..") ∧
      normAbs (pathSegs projectRoot) <+: pathSegs p := by
  constructor
  · constructor
    · rintro ⟨e, he⟩
      by_cases hcond :
          (jsStartsWith (relativePath projectRoot (resolvePath projectRoot userPath)) ".."
            || isAbsolutePath (relativePath projectRoot (resolvePath projectRoot userPath)))
            = true
      · simpa using hcond
      · simp only [validateHtmlRoot, if_neg hne] at he
        rw [if_neg hcond] at he
        cases he
    · intro hor
      refine ⟨"Security: htmlRoot " ++ userPath ++ " is outside project root", ?_⟩
      simp only [validateHtmlRoot, if_neg hne]
      rw [if_pos (by rcases hor with h | h <;> simp [h])]
  · intro p hp
    simp only [validateHtmlRoot, if_neg hne] at hp
    by_cases hcond :
        (jsStartsWith (relativePath projectRoot (resolvePath projectRoot userPath)) ".."
          || isAbsolutePath (relativePath projectRoot (resolvePath projectRoot userPath)))
          = true
    · rw [if_pos hcond] at hp
      cases hp
    · rw [if_neg hcond] at hp
      injection hp with hp'
      subst hp'
      have hstarts :
          jsStartsWith (relativePath projectRoot (resolvePath projectRoot userPath)) ".."
            = false := by
        cases hj : jsStartsWith (relativePath projectRoot (resolvePath projectRoot userPath))
            ".." with
        | false => rfl
        | true => exact absurd (by simp [hj]) hcond
      have hin := relative_no_dotdot_prefix projectRoot (resolvePath projectRoot userPath)
        hstarts
      rw [(resolvePath_norm projectRoot userPath).2] at hin
      exact ⟨rfl, isAbsolutePath_resolvePath projectRoot userPath,
        (resolvePath_norm projectRoot userPath).1, hin⟩

/-- Witness for C2 at a concrete relative htmlRoot inside the project. -/
theorem validateHtmlRoot_path_safety_witness :
    ("pages" ≠ "" ∧ isAbsolutePath "/proj" = true) ∧
    (((∃ e, validateHtmlRoot "pages" "/proj" = .error e) ↔
      (jsStartsWith (relativePath "/proj" (resolvePath "/proj" "pages")) ".." = true ∨
       isAbsolutePath (relativePath "/proj" (resolvePath "/proj" "pages")) = true)) ∧
    ∀ p, validateHtmlRoot "pages" "/proj" = .ok p →
      p = resolvePath "/proj" "pages" ∧
      isAbsolutePath p = true ∧
      (∀ s ∈ pathSegs p, s ≠ "..") ∧
      normAbs (pathSegs "/proj") <+: pathSegs p) :=
  ⟨⟨by decide, rfl⟩, validateHtmlRoot_path_safety "pages" "/proj" (by decide) rfl⟩

end VitePlugin
